import Mathlib

/-!
Shallow embedding of `src/scrape.py` (a bounded-concurrency scraper for
ICML/NeurIPS/ICLR paper data) together with theorems settling the frozen
claims about its specification.
-/

set_option maxHeartbeats 1000000

namespace Scrape

/-! Resilient fetcher: `retry_on_server_disconnect` (lines 22-36) and
`load_doc_from_url` (lines 39-46). -/

/-- A parsed document, abstract (the scraper only threads it through). -/
abbrev Doc := Nat

/-- Outcome of one attempt of the body of `load_doc_from_url`, as decided by
the network and parser: success with a parsed document, an
`aiohttp.client_exceptions.ClientConnectionError` raised during the GET, or
any other exception (malformed response, parse failure, ...). -/
inductive FetchOutcome where
  | success (doc : Doc)
  | connError
  | otherError
deriving DecidableEq, Repr

/-- Exception classes that can escape a fetch: the connection-level class
caught by the retry decorator, or any other exception class. -/
inductive FetchErr where
  | conn
  | other
deriving DecidableEq, Repr

/-- The process-wide progress bar `REQUESTS_PBAR` (line 15): `completed`
models `tqdm.n` (incremented by `update()`, line 45), `total` models the
denominator incremented at line 41. -/
structure Progress where
  completed : Nat
  total : Nat
deriving DecidableEq, Repr

/-- One attempt of the body of `load_doc_from_url` (lines 40-46), with the
`OPEN_REQUESTS` semaphore facet kept separate (see `load_doc_gate` and the
gate transition system below): increment `REQUESTS_PBAR.total`, run the GET
and parse (outcome `w`), and on success call `REQUESTS_PBAR.update()` and
return the document; an exception propagates out of the attempt. -/
def load_doc_attempt (w : FetchOutcome) (p : Progress) :
    Except FetchErr Doc × Progress :=
  let p1 : Progress := { p with total := p.total + 1 }
  match w with
  | FetchOutcome.success d =>
      (Except.ok d, { p1 with completed := p1.completed + 1 })
  | FetchOutcome.connError => (Except.error FetchErr.conn, p1)
  | FetchOutcome.otherError => (Except.error FetchErr.other, p1)

/-- The loop of `retry_on_server_disconnect(n_tries)` applied to the body of
`load_doc_from_url` (lines 26-32), with `remaining = n_tries - i` iterations
left and `i` the current loop index; `w k` is the outcome the world produces
for the k-th attempt.  Returns the Python return value (`none` models the
implicit `return None` when the loop range is exhausted, reachable only for
`n_tries = 0`), the final progress state, and the number of attempts made.
A `ClientConnectionError` is swallowed and retried unless `i == n_tries - 1`,
in which case it is re-raised; any other exception propagates at once. -/
def retry_aux (w : Nat → FetchOutcome) (n_tries : Nat) :
    Nat → Nat → Progress → Except FetchErr (Option Doc) × Progress × Nat
  | 0, i, p => (Except.ok none, p, i)
  | remaining + 1, i, p =>
    match load_doc_attempt (w i) p with
    | (Except.ok d, p1) => (Except.ok (some d), p1, i + 1)
    | (Except.error FetchErr.other, p1) =>
        (Except.error FetchErr.other, p1, i + 1)
    | (Except.error FetchErr.conn, p1) =>
        if i = n_tries - 1 then (Except.error FetchErr.conn, p1, i + 1)
        else retry_aux w n_tries remaining (i + 1) p1

/-- Model of `load_doc_from_url` as decorated in the source:
`retry_on_server_disconnect(3)` wrapped around the fetch body (line 39). -/
def load_doc_from_url (w : Nat → FetchOutcome) (p : Progress) :
    Except FetchErr (Option Doc) × Progress × Nat :=
  retry_aux w 3 3 0 p

/-- One attempt of `load_doc_from_url` with the `OPEN_REQUESTS` semaphore
value made explicit (lines 42-46): `async with OPEN_REQUESTS` acquires one
permit (the caller having suspended until `0 < sem`), and the `async with`
scope releases it on every exit path, both on normal return and when the GET
or the parse raises. -/
def load_doc_gate (w : FetchOutcome) (sem : Nat) : Except FetchErr Doc × Nat :=
  let acquired : Nat := sem - 1
  match w with
  | FetchOutcome.success d => (Except.ok d, acquired + 1)
  | FetchOutcome.connError => (Except.error FetchErr.conn, acquired + 1)
  | FetchOutcome.otherError => (Except.error FetchErr.other, acquired + 1)

/-! Fetch Gate as a transition system: `OPEN_REQUESTS = asyncio.Semaphore(K)`
(lines 19 and 155) under the single-threaded cooperative scheduler. -/

/-- Scheduler-level state of the Fetch Gate: `waiting` fetches have reached
the `async with OPEN_REQUESTS` acquire point and are suspended, `holding`
fetches are between acquire and release, `ended` fetches have released. -/
structure GateState where
  waiting : Nat
  holding : Nat
  ended : Nat
deriving DecidableEq, Repr

/-- One cooperative scheduler step around the gate, for semaphore capacity
`K = args.parallel` (line 155): a new fetch reaches the acquire point; a
suspended fetch is admitted, which the semaphore allows only while fewer
than `K` permits are outstanding; a holder releases, on any exit path of the
`async with` scope. -/
inductive GateStep (K : Nat) : GateState → GateState → Prop where
  | spawn (s : GateState) :
      GateStep K s { s with waiting := s.waiting + 1 }
  | acquire (s : GateState) : 0 < s.waiting → s.holding < K →
      GateStep K s { s with waiting := s.waiting - 1, holding := s.holding + 1 }
  | release (s : GateState) : 0 < s.holding →
      GateStep K s { s with holding := s.holding - 1, ended := s.ended + 1 }

/-- States the scheduler can reach from the start of a run. -/
inductive GateReach (K : Nat) : GateState → Prop where
  | init : GateReach K { waiting := 0, holding := 0, ended := 0 }
  | step (s t : GateState) : GateReach K s → GateStep K s t → GateReach K t

/-! Progress-tracker event traces, for the invariant claims: each fetch
attempt mutates `REQUESTS_PBAR` atomically (no suspension point splits an
increment), and the cooperative scheduler may interleave the event sequences
of concurrently running fetches arbitrarily. -/

/-- A progress-bar mutation event: line 41 (`REQUESTS_PBAR.total += 1`) or
line 45 (`REQUESTS_PBAR.update()`). -/
inductive PEvent where
  | incTotal
  | incCompleted
deriving DecidableEq, Repr

/-- The progress events of one attempt of the body of `load_doc_from_url`:
the denominator bump always happens first; `update()` runs only when the GET
and the parse both succeed. -/
def attempt_events (w : FetchOutcome) : List PEvent :=
  match w with
  | FetchOutcome.success _ => [PEvent.incTotal, PEvent.incCompleted]
  | FetchOutcome.connError => [PEvent.incTotal]
  | FetchOutcome.otherError => [PEvent.incTotal]

/-- Progress events emitted by the retry loop of `retry_aux`, in source
order. -/
def retry_events (w : Nat → FetchOutcome) (n_tries : Nat) :
    Nat → Nat → List PEvent
  | 0, _ => []
  | remaining + 1, i =>
    attempt_events (w i) ++
      match w i with
      | FetchOutcome.connError =>
          if i = n_tries - 1 then [] else retry_events w n_tries remaining (i + 1)
      | _ => []

/-- Progress events of one full `load_doc_from_url` call. -/
def fetch_events (w : Nat → FetchOutcome) : List PEvent :=
  retry_events w 3 3 0

/-- Effect of one progress event on the progress-bar state. -/
def apply_event (p : Progress) : PEvent → Progress
  | PEvent.incTotal => { p with total := p.total + 1 }
  | PEvent.incCompleted => { p with completed := p.completed + 1 }

/-- Progress-bar state after a sequence of events. -/
def run_events (p : Progress) (t : List PEvent) : Progress :=
  t.foldl apply_event p

/-- Balance check used to prove `completed ≤ total`: scanning an event
sequence with a surplus `bal` of total-increments over completed-increments,
every `update()` must find a positive surplus. -/
def eventsOk (bal : Nat) : List PEvent → Bool
  | [] => true
  | PEvent.incTotal :: t => eventsOk (bal + 1) t
  | PEvent.incCompleted :: t => decide (0 < bal) && eventsOk (bal - 1) t

/-- Interleavings: `Merge qs t` holds when `t` is an interleaving of the
per-fetch event sequences `qs`; the cooperative scheduler may order the
concurrently running fetches arbitrarily, but each event is atomic. -/
inductive Merge : List (List PEvent) → List PEvent → Prop where
  | done (qs : List (List PEvent)) : (∀ q ∈ qs, q = []) → Merge qs []
  | step (qs : List (List PEvent)) (k : Nat) (hk : k < qs.length)
      (e : PEvent) (tail : List PEvent) (rest : List PEvent) :
      qs.get ⟨k, hk⟩ = e :: tail → Merge (qs.set k tail) rest →
      Merge qs (e :: rest)

/-- Number of completed-increments (`update()` calls) in an event trace. -/
def countC (t : List PEvent) : Nat :=
  t.countP (fun e => decide (e = PEvent.incCompleted))

/-- Number of total-increments in an event trace. -/
def countT (t : List PEvent) : Nat :=
  t.countP (fun e => decide (e = PEvent.incTotal))

/-! Scrape orchestrator: `Conference.scrape` (lines 77-120). -/

/-- The parse of one paper page, as produced by `load_paper` (lines 56-65):
the title and the ordered author buttons, each a
(display name, author id) pair, in source page order. -/
abbrev PaperData := String × List (String × String)

/-- The remote site as one (collection, period) unit's loaders see it: the
listing page's paper ids (`load_paper_ids`, lines 49-53), the parse of each
paper page (`load_paper`), and the parse of each author page
(`load_author`, lines 68-74: the h3 name and the h4 affiliation). -/
structure World where
  paperIds : List String
  paper : String → PaperData
  author : String → String × String

/-- All author ids referenced across the papers, with multiplicity
(the inner comprehension of line 99). -/
def referenced_author_ids (paper_data : List PaperData) : List String :=
  paper_data.flatMap (fun pd => pd.2.map (fun a => a.2))

/-- Model of `list(set(...))` at lines 98-100: the distinct referenced
author ids, one fetch scheduled per element.  CPython's set iteration order
is unspecified; `dedup` fixes one admissible order. -/
def author_fetch_ids (paper_data : List PaperData) : List String :=
  (referenced_author_ids paper_data).dedup

/-- Model of `asyncio.gather`: each task's result is written into the slot
of the task's position as the tasks complete (`order` lists task indices in
completion order), and the slots are returned in task order once all tasks
have completed. -/
def gather_step (results : List α) (slots : List (Option α)) (k : Nat) :
    List (Option α) :=
  match results[k]? with
  | some v => slots.set k (some v)
  | none => slots

/-- Result slots of `asyncio.gather`, filled in completion order. -/
def gather (results : List α) (order : List Nat) : List (Option α) :=
  order.foldl (gather_step results) (List.replicate results.length none)

/-- Lookup in a Python dict built by `dict(pairs)` (line 104): for a
duplicated key the last pair wins; `none` models a `KeyError`. -/
def dict_find (pairs : List (String × String)) (key : String) : Option String :=
  match pairs with
  | [] => none
  | (k, v) :: rest =>
    match dict_find rest key with
    | some v2 => some v2
    | none => if k = key then some v else none

/-- The inner join comprehension of line 107: each author reference of one
paper is looked up by its display name in the affiliations dict; a missing
key raises `KeyError`, modelled as `none`. -/
def join_authors (affiliations : List (String × String)) :
    List (String × String) → Option (List (String × String))
  | [] => some []
  | a :: rest =>
    match dict_find affiliations a.1, join_authors affiliations rest with
    | some aff, some tail => some ((a.1, aff) :: tail)
    | _, _ => none

/-- The outer join comprehension of lines 106-109, over the papers in fetch
order. -/
def join_papers (affiliations : List (String × String)) :
    List PaperData → Option (List (String × List (String × String)))
  | [] => some []
  | pd :: rest =>
    match join_authors affiliations pd.2, join_papers affiliations rest with
    | some as, some tail => some ((pd.1, as) :: tail)
    | _, _ => none

/-- One conference entry of `CONFERENCES` (lines 77-81, 123-127). -/
structure Conference where
  name : String
  host : String
  first_year : Nat
deriving DecidableEq, Repr

/-- One row of the final DataFrame, after the inserts of lines 117-119:
(Conference, Year, Title, Author, Affiliation). -/
structure Row where
  conference : String
  year : Nat
  title : String
  author : String
  affiliation : String
deriving DecidableEq, Repr

/-- Model of `Conference.scrape` (lines 92-120) for one (collection, period)
unit: fetch the listing, fetch every paper, schedule one author fetch per
distinct referenced author id, gather the author fetches (completing in the
order `order`), build the affiliations dict from the (name, affiliation)
results, join every paper's author references against it by display name,
and flatten into rows tagged with the conference name and year.  `none`
models the unit aborting with a `KeyError` during the join. -/
def Conference.scrape (c : Conference) (year : Nat) (w : World)
    (order : List Nat) : Option (List Row) :=
  let paper_data := w.paperIds.map w.paper
  let author_ids := author_fetch_ids paper_data
  let author_data := (gather (author_ids.map w.author) order).reduceOption
  let affiliations := author_data
  (join_papers affiliations paper_data).map (fun papers =>
    papers.flatMap (fun p => p.2.map (fun na =>
      { conference := c.name, year := year, title := p.1,
        author := na.1, affiliation := na.2 })))

/-! Run coordinator: `main` (lines 130-189). -/

/-- The `CONFERENCES` table (lines 123-127). -/
def CONFERENCES : List Conference :=
  [⟨"ICML", "icml.cc", 2017⟩, ⟨"NeurIPS", "neurips.cc", 2006⟩,
   ⟨"ICLR", "iclr.cc", 2018⟩]

/-- Numeric value of a digit string, as `int` reads it. -/
def natOfDigits (l : List Char) : Nat :=
  l.foldl (fun n ch => n * 10 + (ch.toNat - 48)) 0

/-- Model of `re.match(r"^(\d+)-(\d+)$", years)` at lines 158-160: a greedy
nonempty digit run, a dash, and a nonempty digit run ending the string;
`none` models the failed `assert`. -/
def parse_year_range (l : List Char) : Option (Nat × Nat) :=
  let d1 := l.takeWhile Char.isDigit
  let rest := l.dropWhile Char.isDigit
  match rest with
  | '-' :: d2 =>
    if d1 ≠ [] ∧ d2 ≠ [] ∧ d2.all Char.isDigit then
      some (natOfDigits d1, natOfDigits d2)
    else none
  | _ => none

/-- The year-argument parsing of lines 157-162: a string containing a dash
is matched as a range, anything else goes through `int(years)` (modelled for
plain digit strings, the only shape the claims exercise). -/
def parse_years (years : String) : Option (Nat × Nat) :=
  if years.data.contains '-' then parse_year_range years.data
  else if years.data ≠ [] ∧ years.data.all Char.isDigit then
    some (natOfDigits years.data, natOfDigits years.data)
  else none

/-- The scrape units scheduled by the comprehension of lines 173-178:
conference-major over `year_range = range(start, end + 1)`, keeping years
from the conference's first year on. -/
def scheduled_units (start fin : Nat) : List (Conference × Nat) :=
  CONFERENCES.flatMap (fun conf =>
    ((List.range' start (fin + 1 - start)).filter
        (fun year => conf.first_year ≤ year)).map
      (fun year => (conf, year)))

/-- Model of `pd.concat` (line 181): pandas raises
`ValueError: No objects to concatenate` on an empty list of frames. -/
def pd_concat (frames : List (List Row)) : Except String (List Row) :=
  match frames with
  | [] => Except.error "No objects to concatenate"
  | _ => Except.ok frames.flatten

/-- Primary comparison of the second `sort_values` pass (line 184). -/
def year_le (a b : Row) : Prop := a.year ≤ b.year

/-- Comparison of the first `sort_values` pass (line 183). -/
def conf_le (a b : Row) : Prop := a.conference ≤ b.conference

instance : DecidableRel year_le := fun a b =>
  inferInstanceAs (Decidable (a.year ≤ b.year))

instance : DecidableRel conf_le := fun a b =>
  inferInstanceAs (Decidable (a.conference ≤ b.conference))

instance : IsTotal Row year_le := ⟨fun a b => Nat.le_total a.year b.year⟩

instance : IsTrans Row year_le := ⟨fun _ _ _ h1 h2 => Nat.le_trans h1 h2⟩

instance : IsTotal Row conf_le := ⟨fun a b => le_total a.conference b.conference⟩

instance : IsTrans Row conf_le := ⟨fun _ _ _ h1 h2 => le_trans h1 h2⟩

/-- The two stable sort passes of lines 182-184: sort by Conference, then by
Year, each with `kind="mergesort"`, pandas' stable sort (modelled by
insertion sort, which is stable). -/
def sort_rows (rows : List Row) : List Row :=
  List.insertionSort year_le (List.insertionSort conf_le rows)

/-- The sort order the output is claimed to satisfy: year is the primary
key, conference the secondary key. -/
def year_conf_le (a b : Row) : Prop :=
  a.year < b.year ∨ (a.year = b.year ∧ a.conference ≤ b.conference)

/-- Python 3 regex `\s` in str (Unicode) mode, as CPython's sre engine
decides it via Py_UNICODE_ISSPACE: the ASCII whitespace characters
(0x09-0x0D and space), the information separators 0x1C-0x1F, NEL (0x85),
no-break space (0xA0, what BeautifulSoup yields for an HTML nbsp entity),
ogham space mark (0x1680), the en/em/figure/... spaces 0x2000-0x200A, line
and paragraph separators (0x2028, 0x2029), narrow no-break space (0x202F),
medium mathematical space (0x205F) and ideographic space (0x3000). -/
def py_isspace (ch : Char) : Bool :=
  decide (ch.toNat = 0x20 ∨ (0x09 ≤ ch.toNat ∧ ch.toNat ≤ 0x0D) ∨
    (0x1C ≤ ch.toNat ∧ ch.toNat ≤ 0x1F) ∨ ch.toNat = 0x85 ∨
    ch.toNat = 0xA0 ∨ ch.toNat = 0x1680 ∨
    (0x2000 ≤ ch.toNat ∧ ch.toNat ≤ 0x200A) ∨ ch.toNat = 0x2028 ∨
    ch.toNat = 0x2029 ∨ ch.toNat = 0x202F ∨ ch.toNat = 0x205F ∨
    ch.toNat = 0x3000)

/-- Model of `re.sub("\s+", " ", s)`, the effect on one cell of
`df["Author"].replace("\s+", " ", regex=True)` at line 187: every maximal
whitespace run collapses to a single space. -/
def sub_ws : List Char → List Char
  | [] => []
  | ch :: rest =>
    if py_isspace ch then
      match rest with
      | [] => [' ']
      | ch2 :: _ =>
        if py_isspace ch2 then sub_ws rest else ' ' :: sub_ws rest
    else ch :: sub_ws rest

/-- Whitespace normalization of one author name string. -/
def normalize_ws (s : String) : String := String.mk (sub_ws s.data)

/-- Line 187 applied to the whole DataFrame: only the Author column is
rewritten. -/
def fix_author_spaces (rows : List Row) : List Row :=
  rows.map (fun r => { r with author := normalize_ws r.author })

/-- Model of `main` (lines 130-189) after argument parsing, for a given
remote site (`site`, per scheduled unit) and author-fetch completion orders:
parse the years argument, schedule the units, run every unit (any
`KeyError` aborts the run), concatenate, sort, normalize author whitespace,
and return the rows written to the CSV; an `Except.error` models the run
aborting with an uncaught exception before writing the output file. -/
def main_model (site : Conference → Nat → World)
    (orders : Conference → Nat → List Nat) (years : String) :
    Except String (List Row) :=
  match parse_years years with
  | none => Except.error "Invalid year range"
  | some (start, fin) =>
    let units := scheduled_units start fin
    match units.mapM (fun cy =>
        cy.1.scrape cy.2 (site cy.1 cy.2) (orders cy.1 cy.2)) with
    | none => Except.error "KeyError"
    | some frames =>
      match pd_concat frames with
      | Except.error e => Except.error e
      | Except.ok rows => Except.ok (fix_author_spaces (sort_rows rows))

/-! Theorems. -/

/-- C3: for every fetch, a transient connection-level failure is retried up
to 3 attempts total; if some attempt before the last succeeds, the parsed
document is returned with no error surfaced; if all 3 attempts fail with a
connection-level error, the error is surfaced to the caller and the
progress tracker's completed counter is not incremented for that fetch
(final progress keeps `p.completed`; the loop has no delay between
attempts). -/
theorem c3 (w : Nat → FetchOutcome) (p : Progress) :
    ((∀ i, i < 3 → w i = FetchOutcome.connError) →
      load_doc_from_url w p =
        (Except.error FetchErr.conn, ⟨p.completed, p.total + 3⟩, 3)) ∧
    (∀ j, j < 3 → ∀ d : Doc, (∀ i, i < j → w i = FetchOutcome.connError) →
      w j = FetchOutcome.success d →
      load_doc_from_url w p =
        (Except.ok (some d), ⟨p.completed + 1, p.total + j + 1⟩, j + 1)) := by
  constructor
  · intro h
    have h0 := h 0 (by omega)
    have h1 := h 1 (by omega)
    have h2 := h 2 (by omega)
    simp [load_doc_from_url, retry_aux, load_doc_attempt, h0, h1, h2]
  · intro j hj d hconn hsucc
    interval_cases j
    · simp [load_doc_from_url, retry_aux, load_doc_attempt, hsucc]
    · have h0 := hconn 0 (by omega)
      simp [load_doc_from_url, retry_aux, load_doc_attempt, h0, hsucc]
    · have h0 := hconn 0 (by omega)
      have h1 := hconn 1 (by omega)
      simp [load_doc_from_url, retry_aux, load_doc_attempt, h0, h1, hsucc]

/-- Witness for C3: two connection errors followed by a success on the third
attempt return the document, bump completed once and total three times. -/
theorem c3_witness :
    load_doc_from_url (fun i => if i < 2 then FetchOutcome.connError
      else FetchOutcome.success 0) ⟨0, 0⟩ =
      (Except.ok (some 0), ⟨1, 3⟩, 3) := by
  have h := (c3 (fun i => if i < 2 then FetchOutcome.connError
      else FetchOutcome.success 0) ⟨0, 0⟩).2 2 (by omega) 0
    (fun i hi => by interval_cases i <;> rfl) rfl
  exact h

/-- C7: any exception that is not a transient connection-level error
propagates to the caller immediately from the attempt on which it occurred —
whether that is the first attempt or an attempt reached after transient
connection failures — with zero additional retry attempts performed: a
non-connection error on attempt j (after j retried connection errors) ends
the fetch after exactly j + 1 attempts, surfacing that error, with
completed untouched. -/
theorem c7 (w : Nat → FetchOutcome) (p : Progress) (j : Nat) (hj : j < 3)
    (hconn : ∀ i, i < j → w i = FetchOutcome.connError)
    (hother : w j = FetchOutcome.otherError) :
    load_doc_from_url w p =
      (Except.error FetchErr.other, ⟨p.completed, p.total + j + 1⟩, j + 1) := by
  interval_cases j
  · simp [load_doc_from_url, retry_aux, load_doc_attempt, hother]
  · have h0 := hconn 0 (by omega)
    simp [load_doc_from_url, retry_aux, load_doc_attempt, h0, hother]
  · have h0 := hconn 0 (by omega)
    have h1 := hconn 1 (by omega)
    simp [load_doc_from_url, retry_aux, load_doc_attempt, h0, h1, hother]

/-- Witness for C7: a malformed-document error on the second attempt, after
one transient connection failure, surfaces after exactly two attempts. -/
theorem c7_witness :
    load_doc_from_url (fun i => if i < 1 then FetchOutcome.connError
      else FetchOutcome.otherError) ⟨0, 0⟩ =
      (Except.error FetchErr.other, ⟨0, 2⟩, 2) := by
  have h := c7 (fun i => if i < 1 then FetchOutcome.connError
      else FetchOutcome.otherError) ⟨0, 0⟩ 1 (by omega)
    (fun i hi => by interval_cases i; rfl) rfl
  exact h

/-- C9: the Fetch Gate permit acquired before the network GET is released
on every exit path of the fetch attempt — on success, on a connection error
and on any other exception — so the semaphore value after the attempt
equals the value before it and no exit path leaks a permit. -/
theorem c9 (w : FetchOutcome) (sem : Nat) (h : 0 < sem) :
    (load_doc_gate w sem).2 = sem := by
  cases w <;> simp [load_doc_gate] <;> omega

/-- Witness for C9: with one free permit, a connection-error attempt leaves
the semaphore restored. -/
theorem c9_witness : (load_doc_gate FetchOutcome.connError 1).2 = 1 :=
  c9 FetchOutcome.connError 1 Nat.one_pos

/-- C5: for every configured cap K ≥ 1, in every reachable state of the
cooperative scheduler at most K fetches are simultaneously past Fetch Gate
acquisition and before release. -/
theorem c5 (K : Nat) (hK : 1 ≤ K) (s : GateState) (h : GateReach K s) :
    s.holding ≤ K := by
  induction h with
  | init => exact Nat.zero_le K
  | step s t hs hstep ih =>
    cases hstep with
    | spawn => exact ih
    | acquire hw hh => exact hh
    | release hh => exact le_trans (Nat.sub_le _ _) ih

/-- Witness for C5: with cap 1, the state reached by spawning one fetch and
admitting it holds at most one permit. -/
theorem c5_witness :
    ({ waiting := 0, holding := 1, ended := 0 } : GateState).holding ≤ 1 := by
  have r1 : GateReach 1 { waiting := 1, holding := 0, ended := 0 } :=
    GateReach.step _ _ GateReach.init (GateStep.spawn _)
  have r2 : GateReach 1 { waiting := 0, holding := 1, ended := 0 } :=
    GateReach.step _ _ r1 (GateStep.acquire _ (by decide) (by decide))
  exact c5 1 (le_refl 1) _ r2

/-! Progress-tracker lemmas for C2. -/

theorem eventsOk_mono {t : List PEvent} : ∀ {a b : Nat}, a ≤ b →
    eventsOk a t = true → eventsOk b t = true := by
  induction t with
  | nil => intro a b _ _; rfl
  | cons e t2 ih =>
    intro a b hab h
    cases e with
    | incTotal =>
      simp only [eventsOk] at h ⊢
      exact ih (by omega) h
    | incCompleted =>
      simp only [eventsOk, Bool.and_eq_true, decide_eq_true_eq] at h ⊢
      exact ⟨by omega, ih (by omega) h.2⟩

theorem retry_events_ok (w : Nat → FetchOutcome) (n_tries : Nat) :
    ∀ remaining i bal : Nat,
      eventsOk bal (retry_events w n_tries remaining i) = true := by
  intro remaining
  induction remaining with
  | zero => intro i bal; rfl
  | succ r ih =>
    intro i bal
    cases hw : w i with
    | success d =>
      simp [retry_events, hw, attempt_events, eventsOk]
    | connError =>
      simp only [retry_events, hw, attempt_events, List.cons_append,
        List.nil_append, eventsOk]
      split
      · rfl
      · exact ih (i + 1) (bal + 1)
    | otherError =>
      simp [retry_events, hw, attempt_events, eventsOk]

theorem sum_set_nat (bs : List Nat) : ∀ (k : Nat) (hk : k < bs.length) (v : Nat),
    (bs.set k v).sum + bs.get ⟨k, hk⟩ = bs.sum + v := by
  induction bs with
  | nil => intro k hk v; simp at hk
  | cons b rest ih =>
    intro k hk v
    cases k with
    | zero => simp [List.set, List.sum_cons, List.get]; omega
    | succ k2 =>
      have hk2 : k2 < rest.length := by simpa using hk
      have hrec := ih k2 hk2 v
      simp only [List.set, List.sum_cons, List.get] at hrec ⊢
      omega

theorem merge_countP (pr : PEvent → Bool) {qs : List (List PEvent)}
    {t : List PEvent} (hm : Merge qs t) :
    t.countP pr = (qs.map (List.countP pr)).sum := by
  induction hm with
  | done qs hq =>
    rw [List.countP_nil]
    refine (List.sum_eq_zero ?_).symm
    intro x hx
    obtain ⟨q, hq2, rfl⟩ := List.mem_map.mp hx
    rw [hq q hq2]; rfl
  | step qs k hk e tail rest hget hmerge ih =>
    have hkm : k < (qs.map (List.countP pr)).length := by simpa using hk
    have hset := sum_set_nat (qs.map (List.countP pr)) k hkm (List.countP pr tail)
    rw [← List.map_set] at hset
    have hgm : (qs.map (List.countP pr)).get ⟨k, hkm⟩ =
        List.countP pr (qs.get ⟨k, hk⟩) := by
      simp [List.get_eq_getElem, List.getElem_map]
    rw [hgm, hget, List.countP_cons] at hset
    rw [List.countP_cons, ih]
    omega

theorem merge_eventsOk {qs : List (List PEvent)} {t : List PEvent}
    (hm : Merge qs t) :
    ∀ bs : List Nat, bs.length = qs.length →
    (∀ (k : Nat) (hk : k < qs.length) (hkb : k < bs.length),
      eventsOk (bs.get ⟨k, hkb⟩) (qs.get ⟨k, hk⟩) = true) →
    eventsOk bs.sum t = true := by
  induction hm with
  | done qs hq => intro bs _ _; rfl
  | step qs k hk e tail rest hget hmerge ih =>
    intro bs hlen hok
    have hkb : k < bs.length := by omega
    have hbk := hok k hk hkb
    rw [hget] at hbk
    cases e with
    | incTotal =>
      simp only [eventsOk] at hbk
      have hok2 : ∀ (k2 : Nat) (hk2 : k2 < (qs.set k tail).length)
          (hkb2 : k2 < (bs.set k (bs.get ⟨k, hkb⟩ + 1)).length),
          eventsOk ((bs.set k (bs.get ⟨k, hkb⟩ + 1)).get ⟨k2, hkb2⟩)
            ((qs.set k tail).get ⟨k2, hk2⟩) = true := by
        intro k2 hk2 hkb2
        by_cases hkk : k2 = k
        · subst hkk
          simp only [List.get_eq_getElem, List.getElem_set_self]
          exact hbk
        · simp only [List.get_eq_getElem,
            List.getElem_set_ne (fun h => hkk h.symm)]
          exact hok k2 (by simpa using hk2) (by simpa using hkb2)
      have hrec := ih (bs.set k (bs.get ⟨k, hkb⟩ + 1))
        (by simp [hlen]) hok2
      have hsum := sum_set_nat bs k hkb (bs.get ⟨k, hkb⟩ + 1)
      simp only [eventsOk]
      have : (bs.set k (bs.get ⟨k, hkb⟩ + 1)).sum = bs.sum + 1 := by omega
      rwa [this] at hrec
    | incCompleted =>
      simp only [eventsOk, Bool.and_eq_true, decide_eq_true_eq] at hbk
      obtain ⟨hpos, hbk2⟩ := hbk
      have hmem : bs.get ⟨k, hkb⟩ ∈ bs := List.get_mem bs k hkb
      have hle := List.single_le_sum (fun (x : Nat) _ => Nat.zero_le x) _ hmem
      have hok2 : ∀ (k2 : Nat) (hk2 : k2 < (qs.set k tail).length)
          (hkb2 : k2 < (bs.set k (bs.get ⟨k, hkb⟩ - 1)).length),
          eventsOk ((bs.set k (bs.get ⟨k, hkb⟩ - 1)).get ⟨k2, hkb2⟩)
            ((qs.set k tail).get ⟨k2, hk2⟩) = true := by
        intro k2 hk2 hkb2
        by_cases hkk : k2 = k
        · subst hkk
          simp only [List.get_eq_getElem, List.getElem_set_self]
          exact hbk2
        · simp only [List.get_eq_getElem,
            List.getElem_set_ne (fun h => hkk h.symm)]
          exact hok k2 (by simpa using hk2) (by simpa using hkb2)
      have hrec := ih (bs.set k (bs.get ⟨k, hkb⟩ - 1))
        (by simp [hlen]) hok2
      have hsum := sum_set_nat bs k hkb (bs.get ⟨k, hkb⟩ - 1)
      simp only [eventsOk, Bool.and_eq_true, decide_eq_true_eq]
      refine ⟨by omega, ?_⟩
      have : (bs.set k (bs.get ⟨k, hkb⟩ - 1)).sum = bs.sum - 1 := by omega
      rwa [this] at hrec

theorem eventsOk_take : ∀ (t : List PEvent) (bal : Nat),
    eventsOk bal t = true →
    ∀ m, countC (t.take m) ≤ countT (t.take m) + bal := by
  intro t
  induction t with
  | nil => intro bal _ m; simp [countC, countT]
  | cons e t2 ih =>
    intro bal h m
    cases m with
    | zero => simp [countC, countT]
    | succ m2 =>
      cases e with
      | incTotal =>
        simp only [eventsOk] at h
        have hrec := ih (bal + 1) h m2
        simp only [countC, countT, List.take_succ_cons, List.countP_cons]
          at hrec ⊢
        simp at hrec ⊢
        omega
      | incCompleted =>
        simp only [eventsOk, Bool.and_eq_true, decide_eq_true_eq] at h
        have hrec := ih (bal - 1) h.2 m2
        simp only [countC, countT, List.take_succ_cons, List.countP_cons]
          at hrec ⊢
        simp at hrec ⊢
        omega

theorem run_events_counts : ∀ (t : List PEvent) (p : Progress),
    run_events p t = ⟨p.completed + countC t, p.total + countT t⟩ := by
  intro t
  induction t with
  | nil => intro p; simp [run_events, countC, countT]
  | cons e t2 ih =>
    intro p
    have hstep : run_events p (e :: t2) = run_events (apply_event p e) t2 := rfl
    rw [hstep, ih]
    cases e <;>
      simp [apply_event, countC, countT, List.countP_cons, Progress.mk.injEq] <;>
      omega

theorem countT_take_mono (t : List PEvent) {m1 m2 : Nat} (h : m1 ≤ m2) :
    countT (t.take m1) ≤ countT (t.take m2) := by
  have heq : t.take m1 = (t.take m2).take m1 := by
    rw [List.take_take]
    congr 1
    omega
  rw [heq]
  exact List.Sublist.countP_le _ (List.take_sublist _ _)

theorem fetch_events_first_success (w : Nat → FetchOutcome) (d : Doc)
    (h : w 0 = FetchOutcome.success d) :
    fetch_events w = [PEvent.incTotal, PEvent.incCompleted] := by
  simp [fetch_events, retry_events, h, attempt_events]

/-- C2 (amended): in every interleaving of the event sequences of the run's
fetches, the progress tracker satisfies completed ≤ total at every
observation point and total never decreases; after a run in which every
fetch succeeded on its first attempt, completed equals total.  (The source
increments total once per retry attempt, so a fetch that succeeds only
after retrying leaves completed below total — see the counterexample.) -/
theorem c2_amended (qs : List (List PEvent)) (t : List PEvent)
    (hq : ∀ q ∈ qs, ∃ w, q = fetch_events w) (hm : Merge qs t) :
    (∀ m, (run_events ⟨0, 0⟩ (t.take m)).completed ≤
      (run_events ⟨0, 0⟩ (t.take m)).total) ∧
    (∀ m1 m2, m1 ≤ m2 → (run_events ⟨0, 0⟩ (t.take m1)).total ≤
      (run_events ⟨0, 0⟩ (t.take m2)).total) ∧
    ((∀ q ∈ qs, ∃ w d, q = fetch_events w ∧ w 0 = FetchOutcome.success d) →
      (run_events ⟨0, 0⟩ t).completed = (run_events ⟨0, 0⟩ t).total) := by
  have hok : eventsOk 0 t = true := by
    have hz : (List.replicate qs.length 0).sum = 0 := by
      simp [List.sum_replicate]
    have := merge_eventsOk hm (List.replicate qs.length 0) (by simp)
      (fun k hk hkb => by
        obtain ⟨w, hw⟩ := hq (qs.get ⟨k, hk⟩) (List.get_mem qs k hk)
        rw [hw]
        have hget : (List.replicate qs.length (0 : Nat)).get ⟨k, hkb⟩ = 0 := by
          simp [List.get_eq_getElem, List.getElem_replicate]
        rw [hget]
        exact retry_events_ok w 3 3 0 0)
    rwa [hz] at this
  refine ⟨?_, ?_, ?_⟩
  · intro m
    have := eventsOk_take t 0 hok m
    rw [run_events_counts]
    simpa using this
  · intro m1 m2 hm12
    rw [run_events_counts, run_events_counts]
    have := countT_take_mono t hm12
    simpa using this
  · intro hq2
    have hC := merge_countP (fun e => decide (e = PEvent.incCompleted)) hm
    have hT := merge_countP (fun e => decide (e = PEvent.incTotal)) hm
    have hmap : ∀ pr : PEvent → Bool,
        (∀ q ∈ qs, List.countP pr q = 1) →
        (qs.map (List.countP pr)).sum = qs.length := by
      intro pr hone
      rw [List.map_congr_left hone]
      have : (qs.map (fun _ => 1)).sum = qs.length := by
        rw [show (fun (_ : List PEvent) => 1) = Function.const _ 1 from rfl,
          List.map_const, List.sum_replicate]
        simp
      exact this
    have hCone : ∀ q ∈ qs, List.countP
        (fun e => decide (e = PEvent.incCompleted)) q = 1 := by
      intro q hq3
      obtain ⟨w, d, hw, hw0⟩ := hq2 q hq3
      rw [hw, fetch_events_first_success w d hw0]
      rfl
    have hTone : ∀ q ∈ qs, List.countP
        (fun e => decide (e = PEvent.incTotal)) q = 1 := by
      intro q hq3
      obtain ⟨w, d, hw, hw0⟩ := hq2 q hq3
      rw [hw, fetch_events_first_success w d hw0]
      rfl
    rw [run_events_counts]
    simp only [countC, countT]
    rw [hC, hT, hmap _ hCone, hmap _ hTone]

/-- Witness for C2 (amended): one fetch succeeding on its first attempt
yields the trace [incTotal, incCompleted], on which completed equals
total. -/
theorem c2_amended_witness :
    (run_events ⟨0, 0⟩ [PEvent.incTotal, PEvent.incCompleted]).completed =
      (run_events ⟨0, 0⟩ [PEvent.incTotal, PEvent.incCompleted]).total := by
  have md : Merge [([] : List PEvent)] [] := Merge.done _ (by simp)
  have m1 : Merge [[PEvent.incCompleted]] [PEvent.incCompleted] :=
    Merge.step _ 0 (by simp) PEvent.incCompleted [] [] rfl (by simpa using md)
  have m2 : Merge [[PEvent.incTotal, PEvent.incCompleted]]
      [PEvent.incTotal, PEvent.incCompleted] :=
    Merge.step _ 0 (by simp) PEvent.incTotal [PEvent.incCompleted] _ rfl
      (by simpa using m1)
  have hmerge : Merge [fetch_events (fun _ => FetchOutcome.success 0)]
      [PEvent.incTotal, PEvent.incCompleted] := m2
  exact (c2_amended _ _
    (fun q hq => ⟨fun _ => FetchOutcome.success 0,
      by simpa using hq⟩) hmerge).2.2
    (fun q hq => ⟨fun _ => FetchOutcome.success 0, 0,
      by simpa using hq, rfl⟩)

/-- Counterexample to C2 as stated: a run whose single fetch ultimately
succeeded — but only on its third attempt after two transient connection
failures — ends with completed = 1 and total = 3, so completed differs from
total despite every fetch having ultimately succeeded. -/
theorem c2_counterexample :
    (load_doc_from_url
      (fun i => if i < 2 then FetchOutcome.connError
        else FetchOutcome.success 0) ⟨0, 0⟩).1 = Except.ok (some 0) ∧
    run_events ⟨0, 0⟩ (fetch_events
      (fun i => if i < 2 then FetchOutcome.connError
        else FetchOutcome.success 0)) = ⟨1, 3⟩ ∧
    (1 : Nat) ≠ 3 :=
  ⟨rfl, rfl, by omega⟩

/-! Gather, dict and join lemmas for C1, C4 and C6. -/

theorem gather_step_length (results : List α) (slots : List (Option α))
    (k : Nat) : (gather_step results slots k).length = slots.length := by
  unfold gather_step
  cases results[k]? <;> simp

theorem foldl_gather_step_length (results : List α) :
    ∀ (order : List Nat) (slots : List (Option α)),
    (order.foldl (gather_step results) slots).length = slots.length := by
  intro order
  induction order with
  | nil => intro slots; rfl
  | cons k rest ih =>
    intro slots
    rw [List.foldl_cons, ih, gather_step_length]

theorem foldl_gather_step_getElem (results : List α) :
    ∀ (order : List Nat) (slots : List (Option α)),
    slots.length = results.length → ∀ j : Nat,
    (order.foldl (gather_step results) slots)[j]? =
      if j ∈ order ∧ j < results.length then Option.map some results[j]?
      else slots[j]? := by
  intro order
  induction order with
  | nil => intro slots _ j; simp
  | cons k rest ih =>
    intro slots hlen j
    rw [List.foldl_cons,
      ih (gather_step results slots k) (by rw [gather_step_length]; exact hlen) j]
    by_cases hjr : j ∈ rest ∧ j < results.length
    · simp [hjr, List.mem_cons]
    · simp only [hjr, if_false]
      have hmem : (j ∈ k :: rest ∧ j < results.length) ↔
          (j = k ∧ j < results.length) := by
        simp only [List.mem_cons]
        constructor
        · rintro ⟨hjk | hjr2, hlt⟩
          · exact ⟨hjk, hlt⟩
          · exact absurd ⟨hjr2, hlt⟩ hjr
        · rintro ⟨hjk, hlt⟩
          exact ⟨Or.inl hjk, hlt⟩
      simp only [hmem]
      unfold gather_step
      by_cases hjk : j = k ∧ j < results.length
      · obtain ⟨hjk2, hlt⟩ := hjk
        subst hjk2
        have hv : results[j]? = some (results.get ⟨j, hlt⟩) :=
          List.getElem?_eq_some.mpr ⟨hlt, by simp [List.get_eq_getElem]⟩
        simp [hlt, hv, List.getElem?_set, hlen]
      · simp only [hjk, if_false]
        cases hg : results[k]?
        · rfl
        · rw [List.getElem?_set]
          by_cases hkj : k = j
          · subst hkj
            have hklt : k < results.length := by
              by_contra hc
              rw [List.getElem?_eq_none (by omega)] at hg
              cases hg
            exact absurd ⟨rfl, hklt⟩ hjk
          · simp [hkj]

theorem gather_perm (results : List α) (order : List Nat)
    (h : order.Perm (List.range results.length)) :
    gather results order = results.map some := by
  apply List.ext_getElem?
  intro j
  rw [gather, foldl_gather_step_getElem results order _ (by simp) j]
  have hmem : j ∈ order ↔ j < results.length := by
    rw [h.mem_iff, List.mem_range]
  by_cases hlt : j < results.length
  · simp [hmem, hlt, List.getElem?_map]
  · simp only [hmem, hlt, and_false, if_false]
    rw [List.getElem?_replicate,
      List.getElem?_eq_none (l := results.map some) (by simpa using by omega)]
    simp [hlt]

theorem reduceOption_map_some (l : List α) : (l.map some).reduceOption = l := by
  induction l with
  | nil => rfl
  | cons a t ih => simp [List.reduceOption_cons_of_some, ih]

theorem dict_find_eq_none (key : String) :
    ∀ pairs : List (String × String),
    (∀ kv ∈ pairs, kv.1 ≠ key) → dict_find pairs key = none := by
  intro pairs
  induction pairs with
  | nil => intro _; rfl
  | cons kv rest ih =>
    intro h
    obtain ⟨k, v⟩ := kv
    have hr := ih (fun kv2 h2 => h kv2 (List.mem_cons_of_mem _ h2))
    have hk : k ≠ key := h (k, v) (List.mem_cons_self _ _)
    simp [dict_find, hr, hk]

theorem dict_find_map_author (author : String → String × String) :
    ∀ ids : List String, ids.Nodup →
    (∀ i ∈ ids, ∀ j ∈ ids, (author i).1 = (author j).1 → i = j) →
    ∀ i ∈ ids, dict_find (ids.map author) (author i).1 = some (author i).2 := by
  intro ids
  induction ids with
  | nil => intro _ _ i hi; cases hi
  | cons k rest ih =>
    intro hnd hinj i hi
    have hknr : k ∉ rest := (List.nodup_cons.mp hnd).1
    have hndr : rest.Nodup := (List.nodup_cons.mp hnd).2
    rcases List.mem_cons.mp hi with hik | hir
    · subst hik
      have hnone : dict_find (rest.map author) (author i).1 = none := by
        apply dict_find_eq_none
        intro kv hkv
        obtain ⟨j, hj, rfl⟩ := List.mem_map.mp hkv
        intro heq
        have := hinj j (List.mem_cons_of_mem _ hj) i (List.mem_cons_self _ _) heq
        subst this
        exact hknr hj
      rw [List.map_cons]
      simp [dict_find, hnone]
    · have hrec := ih hndr
        (fun a ha b hb => hinj a (List.mem_cons_of_mem _ ha)
          b (List.mem_cons_of_mem _ hb)) i hir
      rw [List.map_cons]
      simp [dict_find, hrec]

theorem join_authors_eq (affiliations : List (String × String))
    (g : String × String → String) :
    ∀ authors : List (String × String),
    (∀ a ∈ authors, dict_find affiliations a.1 = some (g a)) →
    join_authors affiliations authors =
      some (authors.map (fun a => (a.1, g a))) := by
  intro authors
  induction authors with
  | nil => intro _; rfl
  | cons a rest ih =>
    intro h
    have ha := h a (List.mem_cons_self _ _)
    have hr := ih (fun b hb => h b (List.mem_cons_of_mem _ hb))
    simp [join_authors, ha, hr]

theorem join_papers_eq (affiliations : List (String × String))
    (F : PaperData → List (String × String)) :
    ∀ pds : List PaperData,
    (∀ pd ∈ pds, join_authors affiliations pd.2 = some (F pd)) →
    join_papers affiliations pds =
      some (pds.map (fun pd => (pd.1, F pd))) := by
  intro pds
  induction pds with
  | nil => intro _; rfl
  | cons pd rest ih =>
    intro h
    have hpd := h pd (List.mem_cons_self _ _)
    have hr := ih (fun b hb => h b (List.mem_cons_of_mem _ hb))
    simp [join_papers, hpd, hr]

theorem join_authors_fst (affiliations : List (String × String)) :
    ∀ (authors out : List (String × String)),
    join_authors affiliations authors = some out →
    out.map Prod.fst = authors.map Prod.fst := by
  intro authors
  induction authors with
  | nil =>
    intro out h
    simp only [join_authors] at h
    cases h
    rfl
  | cons a rest ih =>
    intro out h
    simp only [join_authors] at h
    cases hfind : dict_find affiliations a.1 with
    | none => rw [hfind] at h; cases h
    | some aff =>
      rw [hfind] at h
      cases hrec : join_authors affiliations rest with
      | none => rw [hrec] at h; cases h
      | some tail =>
        rw [hrec] at h
        cases h
        simp [ih tail hrec]

theorem join_papers_shape (affiliations : List (String × String)) :
    ∀ (pds : List PaperData) (ps : List (String × List (String × String))),
    join_papers affiliations pds = some ps →
    ps.map (fun p => (p.1, p.2.map Prod.fst)) =
      pds.map (fun pd => (pd.1, pd.2.map Prod.fst)) := by
  intro pds
  induction pds with
  | nil =>
    intro ps h
    simp only [join_papers] at h
    cases h
    rfl
  | cons pd rest ih =>
    intro ps h
    simp only [join_papers] at h
    cases hja : join_authors affiliations pd.2 with
    | none => rw [hja] at h; cases h
    | some as =>
      rw [hja] at h
      cases hrec : join_papers affiliations rest with
      | none => rw [hrec] at h; cases h
      | some tail =>
        rw [hrec] at h
        cases h
        simp [ih tail hrec, join_authors_fst affiliations pd.2 as hja]

/-- C1 is falsified as stated: the affiliations map is keyed by the author
name fetched from the author page, not by AuthorId.  In this unit the only
author reference is ("X", "a1") and the author page for "a1" was fetched
and returned the record ("Y", "Aff"), yet the join does not produce
("Y", "Aff") for that reference — it raises a KeyError (the display name
"X" is not a key of the name-keyed map) and aborts the unit. -/
theorem c1_counterexample :
    (({ paperIds := ["p1"], paper := fun _ => ("T", [("X", "a1")]),
        author := fun _ => ("Y", "Aff") } : World).author "a1" = ("Y", "Aff")) ∧
    Conference.scrape ⟨"ICML", "icml.cc", 2017⟩ 2020
      { paperIds := ["p1"], paper := fun _ => ("T", [("X", "a1")]),
        author := fun _ => ("Y", "Aff") } [0] = none ∧
    Conference.scrape ⟨"ICML", "icml.cc", 2017⟩ 2020
      { paperIds := ["p1"], paper := fun _ => ("T", [("X", "a1")]),
        author := fun _ => ("Y", "Aff") } [0] ≠
      some [{ conference := "ICML", year := 2020, title := "T",
              author := "Y", affiliation := "Aff" }] :=
  ⟨rfl, rfl, by decide⟩

/-- C1 (amended): the join looks each author reference up by its display
name in a name-keyed map built from the fetched (name, affiliation) author
records (a missing display name raises a KeyError that aborts the unit, as
the counterexample shows, rather than silently dropping the author).
Whenever every fetched author record's name equals the display name of its
references and fetched names are injective on the referenced ids — the
situation the site invariant provides — the join succeeds and every
reference (authorId, displayName) is joined to exactly the record fetched
for that authorId, in the papers' original order. -/
theorem c1_amended (c : Conference) (year : Nat) (w : World) (order : List Nat)
    (horder : order.Perm (List.range
      (author_fetch_ids (w.paperIds.map w.paper)).length))
    (hname : ∀ pd ∈ w.paperIds.map w.paper, ∀ a ∈ pd.2,
      (w.author a.2).1 = a.1)
    (hinj : ∀ i ∈ referenced_author_ids (w.paperIds.map w.paper),
      ∀ j ∈ referenced_author_ids (w.paperIds.map w.paper),
      (w.author i).1 = (w.author j).1 → i = j) :
    Conference.scrape c year w order =
      some ((w.paperIds.map w.paper).flatMap (fun pd => pd.2.map (fun a =>
        { conference := c.name, year := year, title := pd.1,
          author := a.1, affiliation := (w.author a.2).2 }))) := by
  have hred : (gather ((author_fetch_ids (w.paperIds.map w.paper)).map
      w.author) order).reduceOption =
      (author_fetch_ids (w.paperIds.map w.paper)).map w.author := by
    rw [gather_perm _ _ (by simpa using horder), reduceOption_map_some]
  have hinj2 : ∀ i ∈ author_fetch_ids (w.paperIds.map w.paper),
      ∀ j ∈ author_fetch_ids (w.paperIds.map w.paper),
      (w.author i).1 = (w.author j).1 → i = j := by
    intro i hi j hj
    exact hinj i (List.mem_dedup.mp hi) j (List.mem_dedup.mp hj)
  have hfind : ∀ pd ∈ w.paperIds.map w.paper, ∀ a ∈ pd.2,
      dict_find ((author_fetch_ids (w.paperIds.map w.paper)).map w.author)
        a.1 = some (w.author a.2).2 := by
    intro pd hpd a ha
    have hmem : a.2 ∈ author_fetch_ids (w.paperIds.map w.paper) := by
      rw [author_fetch_ids, List.mem_dedup, referenced_author_ids]
      exact List.mem_flatMap.mpr ⟨pd, hpd, List.mem_map.mpr ⟨a, ha, rfl⟩⟩
    have hlook := dict_find_map_author w.author
      (author_fetch_ids (w.paperIds.map w.paper)) (List.nodup_dedup _)
      hinj2 a.2 hmem
    rw [hname pd hpd a ha] at hlook
    exact hlook
  have hja : ∀ pd ∈ w.paperIds.map w.paper,
      join_authors ((author_fetch_ids (w.paperIds.map w.paper)).map w.author)
        pd.2 = some (pd.2.map (fun a => (a.1, (w.author a.2).2))) := by
    intro pd hpd
    exact join_authors_eq _ (fun a => (w.author a.2).2) pd.2
      (fun a ha => hfind pd hpd a ha)
  have hjp := join_papers_eq
    ((author_fetch_ids (w.paperIds.map w.paper)).map w.author)
    (fun pd => pd.2.map (fun a => (a.1, (w.author a.2).2)))
    (w.paperIds.map w.paper) hja
  simp only [Conference.scrape, hred, hjp, Option.map_some']
  simp only [List.flatMap_map, List.map_map, Function.comp_def]

/-- Witness for C1 (amended): a unit whose author page name matches the
display name joins the reference to the fetched record. -/
theorem c1_amended_witness :
    Conference.scrape ⟨"ICML", "icml.cc", 2017⟩ 2020
      { paperIds := ["p1"], paper := fun _ => ("T", [("N", "a1")]),
        author := fun _ => ("N", "A") } [0] =
      some [{ conference := "ICML", year := 2020, title := "T",
              author := "N", affiliation := "A" }] := by
  have h := c1_amended ⟨"ICML", "icml.cc", 2017⟩ 2020
    { paperIds := ["p1"], paper := fun _ => ("T", [("N", "a1")]),
      author := fun _ => ("N", "A") } [0] (by decide) (by decide) (by decide)
  exact h

/-- C4: within one (collection, period) unit, every author id referenced by
at least one fetched paper appears exactly once in the list of scheduled
author fetches, no matter how many papers reference it. -/
theorem c4 (paper_data : List PaperData) (id : String)
    (h : id ∈ referenced_author_ids paper_data) :
    (author_fetch_ids paper_data).count id = 1 := by
  rw [author_fetch_ids, List.count_dedup]
  simp [h]

/-- Witness for C4: an author id credited on two papers is fetched once. -/
theorem c4_witness :
    (author_fetch_ids [("T1", [("N", "a1")]), ("T2", [("M", "a1")])]).count
      "a1" = 1 :=
  c4 [("T1", [("N", "a1")]), ("T2", [("M", "a1")])] "a1" (by decide)

/-! Stability of the sort passes, for C6. -/

theorem filter_orderedInsert {α : Type} (r : α → α → Prop) [DecidableRel r]
    (p : α → Bool) (htie : ∀ x y, p x = true → p y = true → r x y) (a : α) :
    ∀ l : List α, (List.orderedInsert r a l).filter p =
      if p a then a :: l.filter p else l.filter p := by
  intro l
  induction l with
  | nil =>
    rw [List.orderedInsert_nil, List.filter]
    by_cases hpa : p a <;> simp [hpa]
  | cons b l2 ih =>
    rw [List.orderedInsert]
    by_cases hab : r a b
    · rw [if_pos hab]
      by_cases hpa : p a <;> simp [List.filter_cons, hpa]
    · rw [if_neg hab, List.filter_cons]
      have hnot : ¬(p a = true ∧ p b = true) :=
        fun hb2 => hab (htie a b hb2.1 hb2.2)
      by_cases hpb : p b
      · have hpa : p a = false := by
          cases hpa2 : p a
          · rfl
          · exact absurd ⟨hpa2, hpb⟩ hnot
        simp [hpb, hpa, ih, List.filter_cons]
      · by_cases hpa : p a <;> simp [hpb, hpa, ih, List.filter_cons]

theorem filter_insertionSort {α : Type} (r : α → α → Prop) [DecidableRel r]
    (p : α → Bool) (htie : ∀ x y, p x = true → p y = true → r x y) :
    ∀ l : List α, (List.insertionSort r l).filter p = l.filter p := by
  intro l
  induction l with
  | nil => rfl
  | cons a l2 ih =>
    rw [List.insertionSort,
      filter_orderedInsert r p htie a (List.insertionSort r l2), ih]
    by_cases hpa : p a <;> simp [List.filter_cons, hpa]

/-- C6: the written rows are sorted with year as the primary and conference
as the secondary key; the two mergesort passes are stable (rows with equal
(year, conference) keep their input order); the scrape result does not
depend on the completion order of the author fetch tasks; and the author
column of a unit's rows lists each paper's authors in the paper's original
source order. -/
theorem c6 :
    (∀ rows : List Row, (sort_rows rows).Sorted year_conf_le) ∧
    (∀ (rows : List Row) (y : Nat) (cf : String),
      (sort_rows rows).filter
          (fun r => decide (r.year = y) && decide (r.conference = cf)) =
        rows.filter
          (fun r => decide (r.year = y) && decide (r.conference = cf))) ∧
    (∀ (c : Conference) (year : Nat) (w : World) (order : List Nat),
      order.Perm (List.range
        (author_fetch_ids (w.paperIds.map w.paper)).length) →
      Conference.scrape c year w order =
        Conference.scrape c year w
          (List.range (author_fetch_ids (w.paperIds.map w.paper)).length)) ∧
    (∀ (c : Conference) (year : Nat) (w : World) (order : List Nat)
      (rows2 : List Row), Conference.scrape c year w order = some rows2 →
      rows2.map Row.author =
        (w.paperIds.map w.paper).flatMap (fun pd => pd.2.map Prod.fst)) := by
  refine ⟨?_, ?_, ?_, ?_⟩
  · intro rows
    apply List.pairwise_iff_forall_sublist.mpr
    intro x y hsub
    have hyx : year_le x y :=
      List.pairwise_iff_forall_sublist.mp
        (List.sorted_insertionSort year_le (List.insertionSort conf_le rows))
        hsub
    by_cases hyy : x.year = y.year
    · refine Or.inr ⟨hyy, ?_⟩
      have htie : ∀ u v : Row, decide (u.year = x.year) = true →
          decide (v.year = x.year) = true → year_le u v := by
        intro u v hu hv
        simp only [decide_eq_true_eq] at hu hv
        unfold year_le
        omega
      have hstab := filter_insertionSort year_le
        (fun r => decide (r.year = x.year)) htie
        (List.insertionSort conf_le rows)
      have hsub2 : [x, y].Sublist ((List.insertionSort year_le
          (List.insertionSort conf_le rows)).filter
          (fun r => decide (r.year = x.year))) := by
        have hf := List.Sublist.filter
          (fun r => decide (r.year = x.year)) hsub
        have hxy : [x, y].filter (fun r => decide (r.year = x.year)) =
            [x, y] := by
          simp [List.filter, hyy.symm]
        rwa [hxy] at hf
      rw [hstab] at hsub2
      have hsorted1 := List.Pairwise.filter
        (R := conf_le) (fun r => decide (r.year = x.year))
        (List.sorted_insertionSort conf_le rows)
      exact List.pairwise_iff_forall_sublist.mp hsorted1 hsub2
    · refine Or.inl ?_
      unfold year_le at hyx
      omega
  · intro rows y cf
    have htie1 : ∀ u v : Row,
        (decide (u.year = y) && decide (u.conference = cf)) = true →
        (decide (v.year = y) && decide (v.conference = cf)) = true →
        year_le u v := by
      intro u v hu hv
      simp only [Bool.and_eq_true, decide_eq_true_eq] at hu hv
      unfold year_le
      omega
    have htie2 : ∀ u v : Row,
        (decide (u.year = y) && decide (u.conference = cf)) = true →
        (decide (v.year = y) && decide (v.conference = cf)) = true →
        conf_le u v := by
      intro u v hu hv
      simp only [Bool.and_eq_true, decide_eq_true_eq] at hu hv
      unfold conf_le
      rw [hu.2, hv.2]
    rw [sort_rows, filter_insertionSort year_le _ htie1,
      filter_insertionSort conf_le _ htie2]
  · intro c year w order hperm
    have h1 := gather_perm
      ((author_fetch_ids (w.paperIds.map w.paper)).map w.author) order
      (by simpa using hperm)
    have h2 := gather_perm
      ((author_fetch_ids (w.paperIds.map w.paper)).map w.author)
      (List.range (author_fetch_ids (w.paperIds.map w.paper)).length)
      (by simp)
    simp only [Conference.scrape, h1, h2]
  · intro c year w order rows2 hsc
    simp only [Conference.scrape] at hsc
    cases hjp : join_papers
        ((gather ((author_fetch_ids (w.paperIds.map w.paper)).map w.author)
          order).reduceOption) (w.paperIds.map w.paper) with
    | none => rw [hjp] at hsc; cases hsc
    | some ps =>
      rw [hjp, Option.map_some'] at hsc
      cases hsc
      have hshape := join_papers_shape _ _ ps hjp
      have hsnd : ps.map (fun p => p.2.map Prod.fst) =
          (w.paperIds.map w.paper).map (fun pd => pd.2.map Prod.fst) := by
        have := congrArg (List.map Prod.snd) hshape
        simpa [List.map_map, Function.comp_def] using this
      rw [List.map_flatMap]
      rw [List.flatMap_def, List.flatMap_def, ← hsnd]
      simp only [List.map_map]
      rfl

/-- Witness for C6: a concrete two-row table is sorted by year then
conference with its ties kept in input order, a two-author unit is
unaffected by reversing the author-fetch completion order, and a concrete
unit's output lists the paper's authors in source order. -/
theorem c6_witness :
    (sort_rows
      [{ conference := "NeurIPS", year := 2021, title := "T2", author := "B",
         affiliation := "Y" },
       { conference := "ICML", year := 2020, title := "T1", author := "A",
         affiliation := "X" }]).Sorted year_conf_le ∧
    Conference.scrape ⟨"ICML", "icml.cc", 2017⟩ 2020
      { paperIds := ["p1"],
        paper := fun _ => ("T", [("N", "a1"), ("M", "a2")]),
        author := fun id2 => if id2 = "a1" then ("N", "A") else ("M", "B") }
      [1, 0] =
      Conference.scrape ⟨"ICML", "icml.cc", 2017⟩ 2020
      { paperIds := ["p1"],
        paper := fun _ => ("T", [("N", "a1"), ("M", "a2")]),
        author := fun id2 => if id2 = "a1" then ("N", "A") else ("M", "B") }
      (List.range 2) ∧
    ([{ conference := "ICML", year := 2020, title := "T", author := "N",
        affiliation := "A" }] : List Row).map Row.author =
      ((["p1"].map (fun _ => ("T", [("N", "a1")]))).flatMap
        (fun pd => pd.2.map Prod.fst)) := by
  refine ⟨c6.1 _, ?_, ?_⟩
  · exact c6.2.2.1 ⟨"ICML", "icml.cc", 2017⟩ 2020
      { paperIds := ["p1"],
        paper := fun _ => ("T", [("N", "a1"), ("M", "a2")]),
        author := fun id2 => if id2 = "a1" then ("N", "A") else ("M", "B") }
      [1, 0] (by decide)
  · exact c6.2.2.2 ⟨"ICML", "icml.cc", 2017⟩ 2020
      { paperIds := ["p1"], paper := fun _ => ("T", [("N", "a1")]),
        author := fun _ => ("N", "A") } [0]
      [{ conference := "ICML", year := 2020, title := "T", author := "N",
         affiliation := "A" }] (by decide)

/-! Whitespace-normalization lemmas for C8. -/

theorem sub_ws_single (ch : Char) :
    sub_ws [ch] = if py_isspace ch then [' '] else [ch] := rfl

theorem sub_ws_cons_cons (ch ch2 : Char) (rest : List Char) :
    sub_ws (ch :: ch2 :: rest) =
      if py_isspace ch then
        (if py_isspace ch2 then sub_ws (ch2 :: rest)
         else ' ' :: sub_ws (ch2 :: rest))
      else ch :: sub_ws (ch2 :: rest) := rfl

theorem sub_ws_append_nonspace (z : List Char) :
    ∀ a : List Char, (∀ ch, a.getLast? = some ch → py_isspace ch = false) →
    sub_ws (a ++ z) = sub_ws a ++ sub_ws z := by
  intro a
  induction a with
  | nil => intro _; rfl
  | cons ch a2 ih =>
    intro hlast
    cases a2 with
    | nil =>
      have hch : py_isspace ch = false := hlast ch rfl
      cases z with
      | nil => simp [sub_ws]
      | cons ch2 z2 =>
        rw [List.singleton_append, sub_ws_cons_cons, sub_ws_single, hch]
        simp
    | cons ch2 a3 =>
      have hlast2 : ∀ c2, (ch2 :: a3).getLast? = some c2 →
          py_isspace c2 = false := by
        intro c2 hc2
        exact hlast c2 (by rw [List.getLast?_cons_cons]; exact hc2)
      have hrec := ih hlast2
      rw [List.cons_append] at hrec
      rw [List.cons_append, List.cons_append, sub_ws_cons_cons,
        sub_ws_cons_cons]
      by_cases hch : py_isspace ch
      · by_cases hch2 : py_isspace ch2 <;> simp [hch, hch2, hrec]
      · simp [hch, hrec]

theorem sub_ws_space_run (z : List Char)
    (hz : ∀ ch, z.head? = some ch → py_isspace ch = false) :
    ∀ r : List Char, r ≠ [] → (∀ ch ∈ r, py_isspace ch = true) →
    sub_ws (r ++ z) = ' ' :: sub_ws z := by
  intro r
  induction r with
  | nil => intro h; cases h rfl
  | cons ch r2 ih =>
    intro _ hall
    have hch : py_isspace ch = true := hall ch (List.mem_cons_self _ _)
    cases r2 with
    | nil =>
      cases z with
      | nil => simp [sub_ws, sub_ws_single, hch]
      | cons ch2 z2 =>
        have hch2 : py_isspace ch2 = false := hz ch2 rfl
        rw [List.singleton_append, sub_ws_cons_cons]
        simp [hch, hch2]
    | cons ch2 r3 =>
      have hch2 : py_isspace ch2 = true := hall ch2 (by simp)
      have hrec := ih (by simp) (fun c hc => hall c (List.mem_cons_of_mem _ hc))
      rw [List.cons_append] at hrec
      rw [List.cons_append, List.cons_append, sub_ws_cons_cons]
      simp [hch, hch2, hrec]

/-- C8: in the Author column rewrite, every maximal run of whitespace
characters — over Python's full Unicode `\s` class, not just ASCII spaces —
is replaced by a single space: splitting any character list around a
nonempty all-whitespace run whose neighbours are not whitespace, the
rewrite yields the two normalized sides joined by one space; the author
name with multiple internal spaces becomes single-spaced in the written
rows, and a mixed run containing a no-break space collapses to a single
space the same way. -/
theorem c8 :
    (∀ a r b : List Char, r ≠ [] → (∀ ch ∈ r, py_isspace ch = true) →
      (∀ ch, a.getLast? = some ch → py_isspace ch = false) →
      (∀ ch, b.head? = some ch → py_isspace ch = false) →
      sub_ws (a ++ r ++ b) = sub_ws a ++ ' ' :: sub_ws b) ∧
    fix_author_spaces
        [{ conference := "ICML", year := 2020, title := "T",
           author := "Jane   Doe", affiliation := "X" }] =
      [{ conference := "ICML", year := 2020, title := "T",
         author := "Jane Doe", affiliation := "X" }] ∧
    fix_author_spaces
        [{ conference := "ICML", year := 2020, title := "T",
           author := "Jane\u00A0 Doe", affiliation := "X" }] =
      [{ conference := "ICML", year := 2020, title := "T",
         author := "Jane Doe", affiliation := "X" }] := by
  refine ⟨?_, by decide, by decide⟩
  intro a r b hr hrs ha hb
  rw [List.append_assoc, sub_ws_append_nonspace (r ++ b) a ha,
    sub_ws_space_run b hb r hr hrs]

/-- Witness for C8: splitting "Jane Doe" around a mixed three-character run
of space, no-break space and space collapses the run to one space. -/
theorem c8_witness :
    sub_ws ("Jane".data ++ [' ', '\u00A0', ' '] ++ "Doe".data) =
      sub_ws "Jane".data ++ ' ' :: sub_ws "Doe".data :=
  c8.1 "Jane".data [' ', '\u00A0', ' '] "Doe".data (by decide) (by decide)
    (by decide) (by decide)

/-- C10 is falsified as stated: with the inverted range "2010-2008" the
program schedules zero units, but `pd.concat` of the empty frame list
raises ValueError, so the run aborts with an error instead of writing an
output file with no data rows. -/
theorem c10_counterexample :
    scheduled_units 2010 2008 = [] ∧
    main_model
        (fun _ _ =>
          { paperIds := [], paper := fun _ => ("", []),
            author := fun _ => ("", "") })
        (fun _ _ => []) "2010-2008" =
      Except.error "No objects to concatenate" ∧
    main_model
        (fun _ _ =>
          { paperIds := [], paper := fun _ => ("", []),
            author := fun _ => ("", "") })
        (fun _ _ => []) "2010-2008" ≠
      Except.ok [] := by
  refine ⟨rfl, rfl, ?_⟩
  intro h
  exact Except.noConfusion h

/-- C10 (amended): "2010-2008" parses as the range (2010, 2008) without a
configuration error, zero scrape units are scheduled and zero fetches are
performed, but the run then aborts: `pd.concat` on the empty list of frames
raises ValueError, so no output file is written. -/
theorem c10_amended (site : Conference → Nat → World)
    (orders : Conference → Nat → List Nat) :
    parse_years "2010-2008" = some (2010, 2008) ∧
    scheduled_units 2010 2008 = [] ∧
    main_model site orders "2010-2008" =
      Except.error "No objects to concatenate" :=
  ⟨rfl, rfl, rfl⟩

end Scrape
